import Mathlib

/-!
# Verification of the TradingJournalApp position-accounting engine

Shallow embedding of the core logic of the repository:

* `src/utils.py` — `extract_money_amount` (money normalizer);
* `src/tables.py` — `Operation`, `Position`, `Position.update`,
  `Position.get_operations_quantity`, `Position.get_related_position`,
  `Operation.add_operation`, `Operation.add_fee`;
* `src/main.py` — `record_operations` (the synchronization loop).

Python `float` values are modelled as exact rationals (`ℚ`); Python's
built-in `round(x, 2)` (round half to even) is modelled by `round2`.
Python `int` is modelled by `ℤ`.  All concrete inputs used in theorems
below are chosen so that no rounding step lands exactly on a half-cent
tie, making the rational idealization agree with IEEE float evaluation
of the same expressions.
-/

namespace TradingJournal

/-! ## The numeric model -/

/-- Rounding of a rational to the nearest integer, ties to even — the
semantics of Python's built-in `round` on exact values. -/
def roundHalfEven (x : ℚ) : ℤ :=
  let n := ⌊x⌋
  if x - (n : ℚ) < 1/2 then n
  else if (1:ℚ)/2 < x - (n : ℚ) then n + 1
  else if n % 2 = 0 then n else n + 1

/-- Python's `round(x, 2)`: round to 2 decimal places, ties to even. -/
def round2 (x : ℚ) : ℚ := ((roundHalfEven (100 * x) : ℤ) : ℚ) / 100

/-- Broker fixed-point money value: integer units plus nano-units
(`tinkoff.invest.schemas.MoneyValue`). -/
structure MoneyValue where
  units : ℤ
  nano : ℤ
deriving DecidableEq, Repr

/-- The function `utils.extract_money_amount` (its `MoneyValue` branch):
`round(units + nano * 0.000000001, 2)`. -/
def extract_money_amount (m : MoneyValue) : ℚ :=
  round2 ((m.units : ℚ) + (m.nano : ℚ) * (1 / 1000000000))

/-! ## The data model (`src/tables.py`) -/

/-- Row of the `operation` table (`tables.Operation`).  The owning
position is represented by nesting the row inside its `Position`'s
`operations` list, mirroring the ORM relationship. -/
structure Operation where
  id : String
  ticker : String
  side : String
  time : ℤ
  quantity : ℤ
  price : ℚ
  fee : ℚ
deriving DecidableEq, Repr

/-- Row of the `position` table (`tables.Position`), with its owned
operations inlined (the `operations` relationship, in arrival order). -/
structure Position where
  ticker : String
  side : String
  open_price : ℚ
  closing_price : ℚ
  closed : Bool
  currency : String
  fee : ℚ
  operations : List Operation
  result : ℚ
  note : Option String
deriving DecidableEq, Repr

/-- Method `Position.get_operations_quantity`: sum of quantities of the
position's operations on the given side. -/
def Position.get_operations_quantity (p : Position) (side : String) : ℤ :=
  ((p.operations.filter (fun o => o.side == side)).map Operation.quantity).sum

/-- Method `Position.update(self, operation, payment)` from
`src/tables.py`.  The caller (`Operation.add_operation`) appends the
operation to `self.operations` before calling `update`, so `operation`
is already a member of `p.operations` here. -/
def Position.update (p : Position) (operation : Operation) (payment : ℚ) : Position :=
  let result' := p.result + round2 payment
  let same_side_position_quantity := p.get_operations_quantity operation.side
  let new_operation_price_fraction :=
    operation.price * ((operation.quantity : ℚ) / (same_side_position_quantity : ℚ))
  let existing_quantity_to_total_ratio :=
    ((same_side_position_quantity - operation.quantity : ℤ) : ℚ)
      / ((same_side_position_quantity : ℤ) : ℚ)
  if p.side == operation.side then
    { p with
        result := result',
        open_price := round2
          (p.open_price * existing_quantity_to_total_ratio
            + new_operation_price_fraction) }
  else
    let opposite_side_position_quantity :=
      p.get_operations_quantity (if operation.side == "Buy" then "Sell" else "Buy")
    { p with
        result := result',
        closing_price := round2
          (p.closing_price * existing_quantity_to_total_ratio
            + new_operation_price_fraction),
        closed :=
          if same_side_position_quantity == opposite_side_position_quantity
          then true else p.closed }

/-- Appending a trade leg to a position and running `Position.update` on
it — the tail of `Operation.add_operation`: the new `Operation` entry is
created with `position = position` (which appends it to
`position.operations` via the ORM relationship), then
`position.update(operation_entry, payment)` runs. -/
def applyTrade (p : Position) (e : Operation) (payment : ℚ) : Position :=
  Position.update { p with operations := p.operations ++ [e] } e payment

/-- Fresh position constructed by `Position.get_related_position` when no
open position for the ticker exists: `ticker`, `side` (the operation's
type), `currency`, `open_price = 0`, `result = 0` are passed explicitly;
`closing_price`, `closed`, `fee` take their column defaults (`0`, i.e.
`false`), `note` is absent, and no operations are attached yet. -/
def freshPosition (e : Operation) (currency : String) : Position :=
  { ticker := e.ticker, side := e.side, open_price := 0, closing_price := 0,
    closed := false, currency := currency, fee := 0, operations := [],
    result := 0, note := none }

/-- Predicate of `Position.get_related_position`'s query:
`closed == False and ticker == operation.ticker`. -/
def isOpenFor (t : String) (p : Position) : Bool :=
  !p.closed && p.ticker == t

/-- Classmethod `Operation.add_operation` acting on the position table:
`Position.get_related_position` returns the first position matching
`closed == False and ticker == operation.ticker` (unique by the
open-position invariant); if none exists a fresh one is created (a new
row, appended).  The entry is then attached and `Position.update` runs. -/
def add_operation : List Position → Operation → String → ℚ → List Position
  | [], e, currency, payment => [applyTrade (freshPosition e currency) e payment]
  | p :: ps, e, currency, payment =>
    if isOpenFor e.ticker p then applyTrade p e payment :: ps
    else p :: add_operation ps e currency payment

/-- Overwrite step of `Operation.add_fee` on one position's operation
list: set the fee of the (unique — `Operation.id` is the primary key)
operation whose id is `pid` to `amount`. -/
def setOpFee : List Operation → String → ℚ → List Operation
  | [], _, _ => []
  | o :: os, pid, amount =>
    if o.id == pid then { o with fee := amount } :: os
    else o :: setOpFee os pid amount

/-- Membership test: does the position own an operation with the given id? -/
def hasOp (p : Position) (pid : String) : Bool :=
  p.operations.any (fun o => o.id == pid)

/-- Method `Operation.add_fee(self, api_operation, session)` seen from
the owning position: `self.fee = fee; self.position.fee += fee`. -/
def add_fee (p : Position) (pid : String) (amount : ℚ) : Position :=
  { p with operations := setOpFee p.operations pid amount, fee := p.fee + amount }

/-- Fee branch of `record_operations`: look up the parent operation by id
across the operation table (it lives inside its owning position); if
found, run `add_fee` on it; if not found, `None.add_fee` raises and the
bare `except Exception` swallows it, leaving the store unchanged. -/
def attachFee : List Position → String → ℚ → List Position
  | [], _, _ => []
  | p :: ps, pid, amount =>
    if hasOp p pid then add_fee p pid amount :: ps
    else p :: attachFee ps pid amount

/-- Row of the `additional_payment` table (`tables.AdditionalPayment`). -/
structure AdditionalPayment where
  ticker : Option String
  description : String
  currency : String
  payment : ℚ
deriving DecidableEq, Repr

/-- Broker operation types relevant to the classifier
(`tinkoff.invest.schemas.OperationType`): the three keys of
`OPERATION_TYPES` plus everything else. -/
inductive OpType where
  | buy
  | sell
  | brokerFee
  | other
deriving DecidableEq, Repr

/-- Mapping `OPERATION_TYPES.get(operation.operation_type)` from
`src/main.py`: Buy/Sell/Fee map to their names, anything else to `None`. -/
def mapOperationType : OpType → Option String
  | .buy => some "Buy"
  | .sell => some "Sell"
  | .brokerFee => some "Fee"
  | .other => none

/-- Element of the fetched batch (`tinkoff.invest.schemas.Operation`),
with the fields `record_operations` reads.  `executed` models
`state == OperationState.OPERATION_STATE_EXECUTED`. -/
structure SdkOperation where
  id : String
  executed : Bool
  operation_type : OpType
  figi : String
  typeText : String
  parent_operation_id : String
  date : ℤ
  quantity : ℤ
  price : MoneyValue
  payment : MoneyValue
  currency : String
deriving DecidableEq, Repr

/-- Persistent store `record_operations` works against: the `position`
table (operations nested in their owning positions) and the
`additional_payment` table. -/
structure Store where
  positions : List Position
  payments : List AdditionalPayment
deriving DecidableEq, Repr

/-- One iteration of the `record_operations` loop over
`operations_response`.  Parameters: `tickers` is the figi→ticker mapping
from the asset table; `fetch` models
`client.instruments.get_instrument_by(...)` resolving a figi missing
from the mapping (the code stores the fetched ticker back into the
mapping, which never changes the result of later lookups since `fetch`
is deterministic, so a fixed function is an exact model); `lastId` is
`getattr(last_trade, "id", 0)` — the id of the most recent recorded
operation, if any (the integer `0` default never equals a string id,
modelled by `none`). -/
def processOperation (tickers : String → Option String) (fetch : String → String)
    (lastId : Option String) (s : Store) (op : SdkOperation) : Store :=
  if !op.executed then s
  else if lastId == some op.id then s
  else
    match mapOperationType op.operation_type with
    | none =>
      { s with payments := s.payments ++
          [{ ticker := tickers op.figi, description := op.typeText,
             currency := op.currency, payment := extract_money_amount op.payment }] }
    | some mapped =>
      if mapped == "Fee" then
        let fee := extract_money_amount op.payment
        { s with positions := attachFee s.positions op.parent_operation_id fee }
      else
        let ticker := (tickers op.figi).getD (fetch op.figi)
        let entry : Operation :=
          { id := op.id, ticker := ticker, side := mapped, time := op.date,
            quantity := op.quantity, price := extract_money_amount op.price,
            fee := 0 }
        let payment := extract_money_amount op.payment
        { s with positions := add_operation s.positions entry op.currency payment }

/-- Loop of `record_operations` from `src/main.py`: fold the batch
(already sorted by date by `get_account_operations`) through the
per-operation step, with the duplicate-id watermark `lastId` computed
before the loop. -/
def record_operations (tickers : String → Option String) (fetch : String → String)
    (lastId : Option String) (s : Store) (batch : List SdkOperation) : Store :=
  batch.foldl (processOperation tickers fetch lastId) s

/-! ## Observations on the store -/

/-- Number of open positions for a ticker in the position table — the
quantity bounded by the uniqueness invariant. -/
def openCount (ps : List Position) (t : String) : ℕ :=
  (ps.filter (fun p => isOpenFor t p)).length

/-- All operation ids in the store, with multiplicity (one per row of
the `operation` table). -/
def storeOpIds : List Position → List String
  | [] => []
  | p :: ps => p.operations.map Operation.id ++ storeOpIds ps

/-- Fee of the first operation with the given id in an operation list
(first match — ids are unique, being the primary key). -/
def opFee? : List Operation → String → Option ℚ
  | [], _ => none
  | o :: os, pid => if o.id == pid then some o.fee else opFee? os pid

/-- Fee field of the first recorded operation with the given id, looked
up across the position table. -/
def storeOpFee? : List Position → String → Option ℚ
  | [], _ => none
  | p :: ps, pid =>
    if hasOp p pid then opFee? p.operations pid else storeOpFee? ps pid

/-- Total fee of the position owning the operation with the given id. -/
def storePosFeeOfParent? : List Position → String → Option ℚ
  | [], _ => none
  | p :: ps, pid =>
    if hasOp p pid then some p.fee else storePosFeeOfParent? ps pid

/-! ## Exact (unrounded) variant of the price recurrence

Comparison definition for the order-insensitivity claim: the spec
describes the weighted-price recomputation as insensitive to arrival
order within a side.  `Position.update_exact` is `Position.update` with
the per-step `round(..., 2)` calls removed — the ideal weighted-average
recurrence the spec's sentence describes; the claim is settled by
comparing it with the rounded recurrence actually implemented. -/

/-- Variant of `Position.update` with every `round(..., 2)` removed. -/
def Position.update_exact (p : Position) (operation : Operation) (payment : ℚ) : Position :=
  let result' := p.result + payment
  let same_side_position_quantity := p.get_operations_quantity operation.side
  let new_operation_price_fraction :=
    operation.price * ((operation.quantity : ℚ) / (same_side_position_quantity : ℚ))
  let existing_quantity_to_total_ratio :=
    ((same_side_position_quantity - operation.quantity : ℤ) : ℚ)
      / ((same_side_position_quantity : ℤ) : ℚ)
  if p.side == operation.side then
    { p with
        result := result',
        open_price := p.open_price * existing_quantity_to_total_ratio
          + new_operation_price_fraction }
  else
    let opposite_side_position_quantity :=
      p.get_operations_quantity (if operation.side == "Buy" then "Sell" else "Buy")
    { p with
        result := result',
        closing_price := p.closing_price * existing_quantity_to_total_ratio
          + new_operation_price_fraction,
        closed :=
          if same_side_position_quantity == opposite_side_position_quantity
          then true else p.closed }

/-- Append-then-update with the exact recurrence. -/
def applyTradeExact (p : Position) (e : Operation) (payment : ℚ) : Position :=
  Position.update_exact { p with operations := p.operations ++ [e] } e payment

/-- Feeding a sequence of trade legs through `Position.update` (via
`applyTrade`), in list order. -/
def feedTrades (l : List Operation) (p : Position) : Position :=
  l.foldl (fun acc e => applyTrade acc e 0) p

/-- Feeding a sequence of trade legs through the exact recurrence. -/
def feedTradesExact (l : List Operation) (p : Position) : Position :=
  l.foldl (fun acc e => applyTradeExact acc e 0) p

/-- Same-side quantity sum of an operation list. -/
def sideQty (ops : List Operation) (s : String) : ℤ :=
  ((ops.filter (fun o => o.side == s)).map Operation.quantity).sum

/-- Same-side price-times-quantity sum of an operation list. -/
def sideWeight (ops : List Operation) (s : String) : ℚ :=
  ((ops.filter (fun o => o.side == s)).map
    (fun o => o.price * (o.quantity : ℚ))).sum

/-! ## Concrete fixtures used in witnesses and counterexamples -/

/-- Buy 10 @ 100 (the opening leg of the spec's running example). -/
def sampleBuy10 : Operation :=
  { id := "t1", ticker := "XYZ", side := "Buy", time := 1, quantity := 10,
    price := 100, fee := 0 }

/-- Buy 5 @ 110 (the second opening leg of the spec's running example). -/
def sampleBuy5 : Operation :=
  { id := "t2", ticker := "XYZ", side := "Buy", time := 2, quantity := 5,
    price := 110, fee := 0 }

/-- Sell 4 @ 120 (a partial close). -/
def sampleSell4 : Operation :=
  { id := "t3", ticker := "XYZ", side := "Sell", time := 3, quantity := 4,
    price := 120, fee := 0 }

/-- Sell 10 @ 120 (a full close). -/
def sampleSell10 : Operation :=
  { id := "t4", ticker := "XYZ", side := "Sell", time := 3, quantity := 10,
    price := 120, fee := 0 }

/-- Position produced by recording Buy 10 @ 100 against an empty table. -/
def posOpened : Position :=
  applyTrade (freshPosition sampleBuy10 "usd") sampleBuy10 (-1000)

/-- Ticker mapping with no entries (witness fixture). -/
def noTickers : String → Option String := fun _ => none

/-- Constant instrument-lookup fallback (witness fixture). -/
def constFetch : String → String := fun _ => "XYZ"

/-- Store holding just the position opened by Buy 10@100. -/
def sampleStore : Store := { positions := [posOpened], payments := [] }

/-- Store holding nothing. -/
def emptyStore : Store := { positions := [], payments := [] }

/-- Executed broker-fee operation whose parent id `"zzz"` matches no
recorded operation. -/
def sampleFeeOpUnknown : SdkOperation :=
  { id := "f1", executed := true, operation_type := OpType.brokerFee,
    figi := "FG", typeText := "Broker fee", parent_operation_id := "zzz",
    date := 5, quantity := 0, price := ⟨0, 0⟩, payment := ⟨-1, -500000000⟩,
    currency := "usd" }

/-- Executed buy operation fetched by a synchronization run. -/
def sampleSdkBuy : SdkOperation :=
  { id := "s1", executed := true, operation_type := OpType.buy, figi := "F1",
    typeText := "Buy", parent_operation_id := "", date := 1, quantity := 10,
    price := ⟨100, 0⟩, payment := ⟨-1000, 0⟩, currency := "usd" }

/-- Executed sell operation fetched by a synchronization run. -/
def sampleSdkSell : SdkOperation :=
  { id := "s2", executed := true, operation_type := OpType.sell, figi := "F1",
    typeText := "Sell", parent_operation_id := "", date := 2, quantity := 10,
    price := ⟨120, 0⟩, payment := ⟨1200, 0⟩, currency := "usd" }

/-- Re-fetched copy of the already-recorded operation `"t1"` (overlap at
the batch boundary of a second synchronization run). -/
def sampleSdkDup : SdkOperation :=
  { id := "t1", executed := true, operation_type := OpType.buy, figi := "F1",
    typeText := "Buy", parent_operation_id := "", date := 1, quantity := 10,
    price := ⟨100, 0⟩, payment := ⟨-1000, 0⟩, currency := "usd" }

/-- Buy 1 @ 0.01 (order-sensitivity fixture). -/
def cexA : Operation :=
  { id := "c1", ticker := "CEX", side := "Buy", time := 1, quantity := 1,
    price := 1/100, fee := 0 }

/-- Second Buy 1 @ 0.01 (order-sensitivity fixture). -/
def cexB : Operation :=
  { id := "c2", ticker := "CEX", side := "Buy", time := 2, quantity := 1,
    price := 1/100, fee := 0 }

/-- Buy 3 @ 0.10 (order-sensitivity fixture). -/
def cexC : Operation :=
  { id := "c3", ticker := "CEX", side := "Buy", time := 3, quantity := 3,
    price := 1/10, fee := 0 }

/-! ## Helper lemmas -/

theorem update_ticker (p : Position) (op : Operation) (pay : ℚ) :
    (Position.update p op pay).ticker = p.ticker := by
  unfold Position.update
  split <;> rfl

theorem update_side (p : Position) (op : Operation) (pay : ℚ) :
    (Position.update p op pay).side = p.side := by
  unfold Position.update
  split <;> rfl

theorem update_currency (p : Position) (op : Operation) (pay : ℚ) :
    (Position.update p op pay).currency = p.currency := by
  unfold Position.update
  split <;> rfl

theorem update_fee (p : Position) (op : Operation) (pay : ℚ) :
    (Position.update p op pay).fee = p.fee := by
  unfold Position.update
  split <;> rfl

theorem update_note (p : Position) (op : Operation) (pay : ℚ) :
    (Position.update p op pay).note = p.note := by
  unfold Position.update
  split <;> rfl

theorem update_operations (p : Position) (op : Operation) (pay : ℚ) :
    (Position.update p op pay).operations = p.operations := by
  unfold Position.update
  split <;> rfl

theorem applyTrade_operations (p : Position) (e : Operation) (pay : ℚ) :
    (applyTrade p e pay).operations = p.operations ++ [e] := by
  unfold applyTrade
  rw [update_operations]

theorem applyTrade_ticker (p : Position) (e : Operation) (pay : ℚ) :
    (applyTrade p e pay).ticker = p.ticker := by
  unfold applyTrade
  rw [update_ticker]

theorem setOpFee_any_id (os : List Operation) (pid : String) (a : ℚ) (q : String) :
    (setOpFee os pid a).any (fun o => o.id == q) = os.any (fun o => o.id == q) := by
  induction os with
  | nil => rfl
  | cons o os ih =>
    unfold setOpFee
    cases hob : (o.id == pid) with
    | true => simp
    | false => simp [ih]

theorem setOpFee_id_map (os : List Operation) (pid : String) (a : ℚ) :
    (setOpFee os pid a).map Operation.id = os.map Operation.id := by
  induction os with
  | nil => rfl
  | cons o os ih =>
    unfold setOpFee
    split
    · rfl
    · simp [ih]

theorem hasOp_add_fee (p : Position) (pid q : String) (a : ℚ) :
    hasOp (add_fee p pid a) q = hasOp p q := by
  unfold hasOp add_fee
  exact setOpFee_any_id p.operations pid a q

theorem opFee?_setOpFee (os : List Operation) (pid : String) (a : ℚ)
    (h : os.any (fun o => o.id == pid) = true) :
    opFee? (setOpFee os pid a) pid = some a := by
  induction os with
  | nil => simp at h
  | cons o os ih =>
    unfold setOpFee
    cases hob : (o.id == pid) with
    | true =>
      simp only [if_true]
      unfold opFee?
      simp [hob]
    | false =>
      simp only [Bool.false_eq_true, if_false]
      unfold opFee?
      simp only [hob, Bool.false_eq_true, if_false]
      apply ih
      simpa [hob] using h

theorem attachFee_spec (ps : List Position) (pid : String) (a : ℚ)
    (h : ∃ p ∈ ps, hasOp p pid = true) :
    storeOpFee? (attachFee ps pid a) pid = some a ∧
    storePosFeeOfParent? (attachFee ps pid a) pid
      = (storePosFeeOfParent? ps pid).map (fun x => x + a) ∧
    (∃ p ∈ attachFee ps pid a, hasOp p pid = true) := by
  induction ps with
  | nil => simp at h
  | cons p ps ih =>
    unfold attachFee
    cases hp : hasOp p pid with
    | true =>
      simp only [if_true]
      refine ⟨?_, ?_, ?_⟩
      · unfold storeOpFee?
        rw [hasOp_add_fee, hp]
        simp only [if_true, add_fee]
        exact opFee?_setOpFee p.operations pid a hp
      · unfold storePosFeeOfParent?
        rw [hasOp_add_fee, hp]
        simp [hp, add_fee]
      · exact ⟨add_fee p pid a, List.mem_cons_self _ _,
          by rw [hasOp_add_fee]; exact hp⟩
    | false =>
      have htail : ∃ q ∈ ps, hasOp q pid = true := by
        rcases h with ⟨q, hq, hqq⟩
        rcases List.mem_cons.mp hq with rfl | hq'
        · rw [hp] at hqq; exact absurd hqq (by simp)
        · exact ⟨q, hq', hqq⟩
      obtain ⟨ih1, ih2, ih3⟩ := ih htail
      simp only [Bool.false_eq_true, if_false]
      refine ⟨?_, ?_, ?_⟩
      · unfold storeOpFee?
        simp only [hp, Bool.false_eq_true, if_false]
        exact ih1
      · unfold storePosFeeOfParent?
        simp only [hp, Bool.false_eq_true, if_false]
        exact ih2
      · rcases ih3 with ⟨q, hq, hqq⟩
        exact ⟨q, List.mem_cons_of_mem _ hq, hqq⟩

theorem attachFee_not_found (ps : List Position) (pid : String) (a : ℚ)
    (h : ∀ p ∈ ps, hasOp p pid = false) :
    attachFee ps pid a = ps := by
  induction ps with
  | nil => rfl
  | cons p ps ih =>
    unfold attachFee
    have hp := h p (List.mem_cons_self _ _)
    simp only [hp, Bool.false_eq_true, if_false]
    rw [ih fun q hq => h q (List.mem_cons_of_mem _ hq)]

theorem storeOpIds_attachFee (ps : List Position) (pid : String) (a : ℚ) :
    storeOpIds (attachFee ps pid a) = storeOpIds ps := by
  induction ps with
  | nil => rfl
  | cons p ps ih =>
    unfold attachFee
    split
    · unfold storeOpIds
      simp [add_fee, setOpFee_id_map]
    · unfold storeOpIds
      rw [ih]

theorem storeOpIds_add_operation (ps : List Position) (e : Operation) (c : String)
    (pay : ℚ) :
    (storeOpIds (add_operation ps e c pay)).Perm (e.id :: storeOpIds ps) := by
  induction ps with
  | nil =>
    unfold add_operation storeOpIds
    rw [applyTrade_operations]
    simp [freshPosition, storeOpIds]
  | cons p ps ih =>
    unfold add_operation
    split
    · unfold storeOpIds
      rw [applyTrade_operations, List.map_append, List.append_assoc]
      simp only [List.map_cons, List.map_nil]
      exact List.perm_middle
    · unfold storeOpIds
      exact (List.Perm.append_left _ ih).trans List.perm_middle

theorem processOperation_cases (t : String → Option String) (f : String → String)
    (lastId : Option String) (s : Store) (op : SdkOperation) :
    (processOperation t f lastId s op).positions = s.positions ∨
    (∃ pid a, (processOperation t f lastId s op).positions = attachFee s.positions pid a) ∨
    (∃ e c pay, Operation.id e = op.id ∧
      (processOperation t f lastId s op).positions = add_operation s.positions e c pay) := by
  unfold processOperation
  split
  · exact Or.inl rfl
  · split
    · exact Or.inl rfl
    · split
      · exact Or.inl rfl
      · split
        · exact Or.inr (Or.inl ⟨_, _, rfl⟩)
        · exact Or.inr (Or.inr ⟨_, _, _, rfl, rfl⟩)

theorem processOperation_skip (t : String → Option String) (f : String → String)
    (lastId : Option String) (s : Store) (op : SdkOperation)
    (h : lastId = some op.id) :
    processOperation t f lastId s op = s := by
  unfold processOperation
  split
  · rfl
  · simp [h]

theorem processOperation_count (t : String → Option String) (f : String → String)
    (lastId : Option String) (s : Store) (op : SdkOperation) (x : String)
    (hx : x ≠ op.id) :
    (storeOpIds (processOperation t f lastId s op).positions).count x
      = (storeOpIds s.positions).count x := by
  rcases processOperation_cases t f lastId s op with h | ⟨pid, a, h⟩ | ⟨e, c, pay, he, h⟩
  · rw [h]
  · rw [h, storeOpIds_attachFee]
  · rw [h, List.Perm.count_eq (storeOpIds_add_operation s.positions e c pay)]
    rw [List.count_cons]
    have : ¬op.id = x := fun hc => hx hc.symm
    simp [he, this]

theorem record_operations_count_aux (t : String → Option String) (f : String → String)
    (lastId : Option String) (ids₀ : List String) (batch : List SdkOperation) :
    ∀ s : Store, (∀ op ∈ batch, op.id ∈ ids₀ → lastId = some op.id) →
    (∀ x ∈ ids₀, (storeOpIds s.positions).count x = ids₀.count x) →
    ∀ x ∈ ids₀,
      (storeOpIds (record_operations t f lastId s batch).positions).count x
        = ids₀.count x := by
  induction batch with
  | nil => exact fun s _ hs => hs
  | cons op rest ih =>
    intro s hbatch hs
    have hstep : ∀ x ∈ ids₀,
        (storeOpIds (processOperation t f lastId s op).positions).count x
          = ids₀.count x := by
      intro x hx
      by_cases hxo : x = op.id
      · subst hxo
        rw [processOperation_skip t f lastId s op
          (hbatch op (List.mem_cons_self _ _) hx)]
        exact hs _ hx
      · rw [processOperation_count t f lastId s op x hxo]
        exact hs x hx
    exact ih (processOperation t f lastId s op)
      (fun o ho => hbatch o (List.mem_cons_of_mem _ ho)) hstep

theorem openCount_cons (p : Position) (ps : List Position) (u : String) :
    openCount (p :: ps) u
      = (if isOpenFor u p then 1 else 0) + openCount ps u := by
  unfold openCount
  rw [List.filter_cons]
  split <;> simp [Nat.add_comm]

theorem isOpenFor_add_fee (p : Position) (pid : String) (a : ℚ) (u : String) :
    isOpenFor u (add_fee p pid a) = isOpenFor u p := rfl

theorem openCount_attachFee (ps : List Position) (pid : String) (a : ℚ) (u : String) :
    openCount (attachFee ps pid a) u = openCount ps u := by
  induction ps with
  | nil => rfl
  | cons p ps ih =>
    unfold attachFee
    split
    · rw [openCount_cons, openCount_cons, isOpenFor_add_fee]
    · rw [openCount_cons, openCount_cons, ih]

theorem isOpenFor_applyTrade_ne (p : Position) (e : Operation) (pay : ℚ) (u : String)
    (hu : p.ticker ≠ u) :
    isOpenFor u (applyTrade p e pay) = false := by
  unfold isOpenFor
  rw [applyTrade_ticker]
  simp [hu]

theorem isOpenFor_false_of_ticker_ne (p : Position) (u : String) (hu : p.ticker ≠ u) :
    isOpenFor u p = false := by
  unfold isOpenFor
  simp [hu]

theorem add_operation_openCount_ne (ps : List Position) (e : Operation) (c : String)
    (pay : ℚ) (u : String) (hu : u ≠ e.ticker) :
    openCount (add_operation ps e c pay) u = openCount ps u := by
  induction ps with
  | nil =>
    unfold add_operation openCount
    rw [List.filter_cons]
    have : isOpenFor u (applyTrade (freshPosition e c) e pay) = false := by
      apply isOpenFor_applyTrade_ne
      simp [freshPosition]
      exact fun hc => hu hc.symm
    simp [this]
  | cons p ps ih =>
    unfold add_operation
    split
    · rename_i hmatch
      have hpt : p.ticker = e.ticker := by
        unfold isOpenFor at hmatch
        simp at hmatch
        exact hmatch.2
      have h1 : isOpenFor u (applyTrade p e pay) = false :=
        isOpenFor_applyTrade_ne p e pay u (by rw [hpt]; exact fun hc => hu hc.symm)
      have h2 : isOpenFor u p = false :=
        isOpenFor_false_of_ticker_ne p u (by rw [hpt]; exact fun hc => hu hc.symm)
      rw [openCount_cons, openCount_cons, h1, h2]
    · rw [openCount_cons, openCount_cons, ih]

theorem add_operation_openCount_le (ps : List Position) (e : Operation) (c : String)
    (pay : ℚ) :
    openCount (add_operation ps e c pay) e.ticker
      ≤ max (openCount ps e.ticker) 1 := by
  induction ps with
  | nil =>
    unfold add_operation openCount
    rw [List.filter_cons]
    split <;> simp
  | cons p ps ih =>
    unfold add_operation
    split
    · rename_i hmatch
      rw [openCount_cons, openCount_cons]
      have hle : (if isOpenFor e.ticker (applyTrade p e pay) then 1 else 0)
          ≤ (if isOpenFor e.ticker p then 1 else 0) := by
        rw [hmatch]
        split <;> simp
      have := Nat.add_le_add hle (Nat.le_refl (openCount ps e.ticker))
      refine le_trans this ?_
      exact le_max_left _ _
    · rename_i hmatch
      rw [openCount_cons]
      have h2 : isOpenFor e.ticker p = false := by
        cases h : isOpenFor e.ticker p
        · rfl
        · exact absurd h hmatch
      rw [h2]
      simp only [Bool.false_eq_true, if_false, Nat.zero_add]
      refine le_trans ih ?_
      rw [openCount_cons, h2]
      simp

theorem processOperation_openCount_le (t : String → Option String)
    (f : String → String) (lastId : Option String) (s : Store) (op : SdkOperation)
    (h : ∀ u, openCount s.positions u ≤ 1) :
    ∀ u, openCount (processOperation t f lastId s op).positions u ≤ 1 := by
  intro u
  rcases processOperation_cases t f lastId s op with hc | ⟨pid, a, hc⟩ | ⟨e, c, pay, _, hc⟩
  · rw [hc]; exact h u
  · rw [hc, openCount_attachFee]; exact h u
  · rw [hc]
    by_cases hu : u = e.ticker
    · subst hu
      exact le_trans (add_operation_openCount_le s.positions e c pay)
        (max_le (h _) le_rfl)
    · rw [add_operation_openCount_ne s.positions e c pay u hu]
      exact h u

theorem record_operations_openCount_aux (t : String → Option String)
    (f : String → String) (lastId : Option String) (batch : List SdkOperation) :
    ∀ s : Store, (∀ u, openCount s.positions u ≤ 1) →
    ∀ u, openCount (record_operations t f lastId s batch).positions u ≤ 1 := by
  induction batch with
  | nil => exact fun s h => h
  | cons op rest ih =>
    intro s h
    exact ih (processOperation t f lastId s op)
      (processOperation_openCount_le t f lastId s op h)

theorem update_exact_side (p : Position) (op : Operation) (pay : ℚ) :
    (Position.update_exact p op pay).side = p.side := by
  unfold Position.update_exact
  split <;> rfl

theorem update_exact_operations (p : Position) (op : Operation) (pay : ℚ) :
    (Position.update_exact p op pay).operations = p.operations := by
  unfold Position.update_exact
  split <;> rfl

theorem sideQty_append (l₁ l₂ : List Operation) (s : String) :
    sideQty (l₁ ++ l₂) s = sideQty l₁ s + sideQty l₂ s := by
  simp [sideQty, List.filter_append]

theorem sideWeight_append (l₁ l₂ : List Operation) (s : String) :
    sideWeight (l₁ ++ l₂) s = sideWeight l₁ s + sideWeight l₂ s := by
  simp [sideWeight, List.filter_append]

theorem get_operations_quantity_eq_sideQty (p : Position) (s : String) :
    p.get_operations_quantity s = sideQty p.operations s := rfl

theorem applyTradeExact_open_price (p : Position) (e : Operation) (pay : ℚ)
    (hside : e.side = p.side) :
    (applyTradeExact p e pay).open_price =
      p.open_price * (((sideQty p.operations p.side + e.quantity - e.quantity : ℤ) : ℚ)
          / ((sideQty p.operations p.side + e.quantity : ℤ) : ℚ))
        + e.price * ((e.quantity : ℚ)
          / ((sideQty p.operations p.side + e.quantity : ℤ) : ℚ)) := by
  unfold applyTradeExact Position.update_exact
  have hb : (p.side == e.side) = true := by simp [hside]
  simp only [hb, if_true]
  have hq : Position.get_operations_quantity
      { p with operations := p.operations ++ [e] } e.side
      = sideQty p.operations p.side + e.quantity := by
    rw [get_operations_quantity_eq_sideQty]
    simp only [sideQty_append, hside]
    congr 1
    simp [sideQty, List.filter, hside]
  simp [hq]

theorem feedTradesExact_invariant (l : List Operation) (p : Position)
    (hside : ∀ o ∈ l, o.side = p.side) (hqty : ∀ o ∈ l, 0 < o.quantity)
    (hQ : 0 ≤ sideQty p.operations p.side)
    (hinv : p.open_price * ((sideQty p.operations p.side : ℤ) : ℚ)
      = sideWeight p.operations p.side) :
    (feedTradesExact l p).side = p.side ∧
    (feedTradesExact l p).operations = p.operations ++ l ∧
    (feedTradesExact l p).open_price * ((sideQty (p.operations ++ l) p.side : ℤ) : ℚ)
      = sideWeight (p.operations ++ l) p.side := by
  induction l generalizing p with
  | nil => simpa [feedTradesExact] using hinv
  | cons o rest ih =>
    have hos : o.side = p.side := hside o (List.mem_cons_self _ _)
    have hoq : 0 < o.quantity := hqty o (List.mem_cons_self _ _)
    have hfold : feedTradesExact (o :: rest) p
        = feedTradesExact rest (applyTradeExact p o 0) := rfl
    set p' := applyTradeExact p o 0 with hp'
    have hp'side : p'.side = p.side := by
      rw [hp']
      unfold applyTradeExact
      rw [update_exact_side]
    have hp'ops : p'.operations = p.operations ++ [o] := by
      rw [hp']
      unfold applyTradeExact
      rw [update_exact_operations]
    have hQq : sideQty (p.operations ++ [o]) p.side
        = sideQty p.operations p.side + o.quantity := by
      rw [sideQty_append]
      congr 1
      simp [sideQty, List.filter, hos]
    have hWq : sideWeight (p.operations ++ [o]) p.side
        = sideWeight p.operations p.side + o.price * (o.quantity : ℚ) := by
      rw [sideWeight_append]
      congr 1
      simp [sideWeight, List.filter, hos]
    have hden : ((sideQty p.operations p.side : ℤ) : ℚ) + ((o.quantity : ℤ) : ℚ) ≠ 0 := by
      have h1 : (0:ℚ) ≤ ((sideQty p.operations p.side : ℤ) : ℚ) := by exact_mod_cast hQ
      have h2 : (0:ℚ) < ((o.quantity : ℤ) : ℚ) := by exact_mod_cast hoq
      linarith
    have hopen : p'.open_price * ((sideQty p'.operations p'.side : ℤ) : ℚ)
        = sideWeight p'.operations p'.side := by
      rw [hp'side, hp'ops, hQq, hWq]
      rw [hp', applyTradeExact_open_price p o 0 hos]
      rw [← hinv]
      push_cast
      field_simp
    have hQ' : 0 ≤ sideQty p'.operations p'.side := by
      rw [hp'side, hp'ops, hQq]
      linarith
    have hside' : ∀ o' ∈ rest, o'.side = p'.side := fun o' ho' => by
      rw [hp'side]; exact hside o' (List.mem_cons_of_mem _ ho')
    have hqty' : ∀ o' ∈ rest, 0 < o'.quantity :=
      fun o' ho' => hqty o' (List.mem_cons_of_mem _ ho')
    obtain ⟨ih1, ih2, ih3⟩ := ih p' hside' hqty' hQ' hopen
    rw [hfold]
    refine ⟨by rw [ih1, hp'side], by rw [ih2, hp'ops, List.append_assoc]; rfl, ?_⟩
    have : p.operations ++ o :: rest = p'.operations ++ rest := by
      rw [hp'ops, List.append_assoc]
      rfl
    rw [this]
    rw [← hp'side]
    exact ih3

end TradingJournal

/-! ## Claims -/

namespace TradingJournal

/-- Claim C1.  After any synchronization pass (`record_operations` over a
time-ordered batch of executed operations), for every ticker T at most
one Position row with `ticker = T` and `closed = false` exists:
`get_related_position` returns the existing open position for T when one
exists and creates a new one only when none does, so no pass ever
produces two open positions for the same ticker (assuming the store
satisfied the invariant before the pass). -/
theorem open_position_per_ticker_unique (t : String → Option String)
    (f : String → String) (lastId : Option String) (s : Store)
    (batch : List SdkOperation) (h : ∀ u, openCount s.positions u ≤ 1) :
    ∀ u, openCount (record_operations t f lastId s batch).positions u ≤ 1 :=
  record_operations_openCount_aux t f lastId batch s h

/-- Witness for C1: synchronizing a Buy and a Sell against an empty
store keeps at most one open position per ticker. -/
theorem open_position_per_ticker_unique_witness :
    (∀ u, openCount emptyStore.positions u ≤ 1) ∧
    (∀ u, openCount (record_operations noTickers constFetch none emptyStore
      [sampleSdkBuy, sampleSdkSell]).positions u ≤ 1) :=
  ⟨fun u => by simp [emptyStore, openCount],
    open_position_per_ticker_unique noTickers constFetch none emptyStore
      [sampleSdkBuy, sampleSdkSell]
      (fun u => by simp [emptyStore, openCount])⟩

/-- Claim C2.  For every operation processed on the position's opening
side (`op.side == position.side`), `Position.update` sets `open_price`
to `round(open_price * (sameSideQty - op.quantity) / sameSideQty
+ op.price * op.quantity / sameSideQty, 2)`, where `sameSideQty` is the
sum of quantities of all same-side operations including the one just
appended; in particular, for a position opened with Buy 10@100 followed
by Buy 5@110, `open_price` equals 103.33. -/
theorem update_open_side_weighted_price :
    (∀ (p : Position) (op : Operation) (pay : ℚ), p.side = op.side →
      (applyTrade p op pay).open_price =
        round2 (p.open_price
            * (((Position.get_operations_quantity
                  { p with operations := p.operations ++ [op] } op.side
                 - op.quantity : ℤ) : ℚ))
              / ((Position.get_operations_quantity
                  { p with operations := p.operations ++ [op] } op.side : ℤ) : ℚ)
          + op.price * (op.quantity : ℚ)
              / ((Position.get_operations_quantity
                  { p with operations := p.operations ++ [op] } op.side : ℤ) : ℚ)))
    ∧ (applyTrade posOpened sampleBuy5 (-550)).open_price = 10333/100 := by
  constructor
  · intro p op pay h
    have hb : (p.side == op.side) = true := by simp [h]
    simp only [applyTrade, Position.update, hb, if_true]
    congr 1
    ring
  · simp only [applyTrade, Position.update, Position.get_operations_quantity,
      posOpened, freshPosition, sampleBuy10, sampleBuy5,
      List.append_eq, List.nil_append, List.filter, List.map, List.sum]
    norm_num [round2, roundHalfEven]

/-- Witness for C2: the opening-side formula instantiated at the
concrete position opened by Buy 10@100 receiving Buy 5@110. -/
theorem update_open_side_weighted_price_witness :
    posOpened.side = sampleBuy5.side ∧
    (applyTrade posOpened sampleBuy5 (-550)).open_price =
      round2 (posOpened.open_price
          * (((Position.get_operations_quantity
                { posOpened with operations := posOpened.operations ++ [sampleBuy5] }
                sampleBuy5.side - sampleBuy5.quantity : ℤ) : ℚ))
            / ((Position.get_operations_quantity
                { posOpened with operations := posOpened.operations ++ [sampleBuy5] }
                sampleBuy5.side : ℤ) : ℚ)
        + sampleBuy5.price * (sampleBuy5.quantity : ℚ)
            / ((Position.get_operations_quantity
                { posOpened with operations := posOpened.operations ++ [sampleBuy5] }
                sampleBuy5.side : ℤ) : ℚ)) :=
  ⟨rfl, update_open_side_weighted_price.1 posOpened sampleBuy5 (-550) rfl⟩

/-- Claim C3.  For every operation processed on the position's closing
side (`op.side != position.side`), `Position.update` applies the same
weighted formula to `closing_price` and sets `closed = true` exactly
when the cumulative closing-side quantity equals the cumulative
opening-side quantity, and never otherwise; in particular, after
Buy 10@100 then Sell 4@120 the position has `closed == false` and
`closing_price == 120`, and after Buy 10@100 then Sell 10@120 `closed`
becomes true exactly when the Sell is processed. -/
theorem update_closing_side_transition :
    (∀ (p : Position) (op : Operation) (pay : ℚ),
      (p.side = "Buy" ∧ op.side = "Sell") ∨ (p.side = "Sell" ∧ op.side = "Buy") →
      p.closed = false →
      (applyTrade p op pay).closing_price =
        round2 (p.closing_price
            * (((Position.get_operations_quantity
                  { p with operations := p.operations ++ [op] } op.side
                 - op.quantity : ℤ) : ℚ))
              / ((Position.get_operations_quantity
                  { p with operations := p.operations ++ [op] } op.side : ℤ) : ℚ)
          + op.price * (op.quantity : ℚ)
              / ((Position.get_operations_quantity
                  { p with operations := p.operations ++ [op] } op.side : ℤ) : ℚ))
      ∧ ((applyTrade p op pay).closed = true ↔
          Position.get_operations_quantity
              { p with operations := p.operations ++ [op] } op.side
            = Position.get_operations_quantity
              { p with operations := p.operations ++ [op] } p.side))
    ∧ (applyTrade posOpened sampleSell4 480).closed = false
    ∧ (applyTrade posOpened sampleSell4 480).closing_price = 120
    ∧ posOpened.closed = false
    ∧ (applyTrade posOpened sampleSell10 1200).closed = true := by
  refine ⟨?_, ?_, ?_, ?_, ?_⟩
  · rintro p op pay (⟨h1, h2⟩ | ⟨h1, h2⟩) hcl <;>
    · simp only [applyTrade, Position.update, h1, h2]
      simp [hcl]
      congr 1
      ring
  · simp only [applyTrade, Position.update, Position.get_operations_quantity,
      posOpened, freshPosition, sampleBuy10, sampleSell4,
      List.append_eq, List.nil_append, List.filter, List.map, List.sum]
    norm_num [round2, roundHalfEven]
    simp
  · simp only [applyTrade, Position.update, Position.get_operations_quantity,
      posOpened, freshPosition, sampleBuy10, sampleSell4,
      List.append_eq, List.nil_append, List.filter, List.map, List.sum]
    norm_num [round2, roundHalfEven]
    simp
  · simp only [posOpened, applyTrade, Position.update, freshPosition, sampleBuy10]
    norm_num
  · simp only [applyTrade, Position.update, Position.get_operations_quantity,
      posOpened, freshPosition, sampleBuy10, sampleSell10,
      List.append_eq, List.nil_append, List.filter, List.map, List.sum]
    norm_num [round2, roundHalfEven]
    simp

/-- Witness for C3: the closing-side clause instantiated at the concrete
position opened by Buy 10@100 receiving Sell 4@120. -/
theorem update_closing_side_transition_witness :
    ((posOpened.side = "Buy" ∧ sampleSell4.side = "Sell") ∨
      (posOpened.side = "Sell" ∧ sampleSell4.side = "Buy")) ∧
    posOpened.closed = false ∧
    ((applyTrade posOpened sampleSell4 480).closing_price =
        round2 (posOpened.closing_price
            * (((Position.get_operations_quantity
                  { posOpened with operations := posOpened.operations ++ [sampleSell4] }
                  sampleSell4.side - sampleSell4.quantity : ℤ) : ℚ))
              / ((Position.get_operations_quantity
                  { posOpened with operations := posOpened.operations ++ [sampleSell4] }
                  sampleSell4.side : ℤ) : ℚ)
          + sampleSell4.price * (sampleSell4.quantity : ℚ)
              / ((Position.get_operations_quantity
                  { posOpened with operations := posOpened.operations ++ [sampleSell4] }
                  sampleSell4.side : ℤ) : ℚ))
      ∧ ((applyTrade posOpened sampleSell4 480).closed = true ↔
          Position.get_operations_quantity
              { posOpened with operations := posOpened.operations ++ [sampleSell4] }
              sampleSell4.side
            = Position.get_operations_quantity
              { posOpened with operations := posOpened.operations ++ [sampleSell4] }
              posOpened.side)) :=
  ⟨Or.inl ⟨rfl, rfl⟩, rfl,
    update_closing_side_transition.1 posOpened sampleSell4 480 (Or.inl ⟨rfl, rfl⟩) rfl⟩

/-- Claim C4 (counterexample).  The claim asserts the weighted-price
computation is insensitive to arrival order within one side.  It is
false for `Position.update` as implemented, because the running price is
rounded to 2 decimals at every step: the same-side sequence
Buy 1@0.01, Buy 1@0.01, Buy 3@0.10 yields `open_price = 0.06`, while the
permutation Buy 1@0.01, Buy 3@0.10, Buy 1@0.01 yields
`open_price = 0.07` (no rounding step here lands on a tie, so IEEE float
evaluation agrees). -/
theorem weighted_price_order_sensitive_cex :
    ([cexA, cexB, cexC] : List Operation).Perm [cexA, cexC, cexB] ∧
    (feedTrades [cexA, cexB, cexC] (freshPosition cexA "usd")).open_price = 3/50 ∧
    (feedTrades [cexA, cexC, cexB] (freshPosition cexA "usd")).open_price = 7/100 ∧
    (3 : ℚ)/50 ≠ 7/100 := by
  refine ⟨List.Perm.cons cexA (List.Perm.swap cexC cexB []), ?_, ?_, by norm_num⟩
  · simp only [feedTrades, List.foldl, applyTrade, Position.update,
      Position.get_operations_quantity, freshPosition, cexA, cexB, cexC,
      List.append_eq, List.nil_append, List.filter, List.map, List.sum]
    norm_num [round2, roundHalfEven]
  · simp only [feedTrades, List.foldl, applyTrade, Position.update,
      Position.get_operations_quantity, freshPosition, cexA, cexB, cexC,
      List.append_eq, List.nil_append, List.filter, List.map, List.sum]
    norm_num [round2, roundHalfEven]

/-- Claim C4 (amended).  The underlying weighted-average recurrence —
`Position.update` with the per-step 2-decimal rounding removed — is
insensitive to operation arrival order within one side: starting from a
fresh position, feeding any permutation of a same-side operation
sequence (quantities positive, prices unchanged) through the exact
recurrence yields the same final `open_price`.  With the rounding the
code applies at each step, the final `open_price` can differ across
permutations (see the counterexample). -/
theorem exact_weighted_price_order_insensitive (p : Position) (l₁ l₂ : List Operation)
    (hops : p.operations = []) (hside : ∀ o ∈ l₁, o.side = p.side)
    (hqty : ∀ o ∈ l₁, 0 < o.quantity) (hperm : l₁.Perm l₂) :
    (feedTradesExact l₁ p).open_price = (feedTradesExact l₂ p).open_price := by
  have hside₂ : ∀ o ∈ l₂, o.side = p.side := fun o ho => hside o (hperm.mem_iff.mpr ho)
  have hqty₂ : ∀ o ∈ l₂, 0 < o.quantity := fun o ho => hqty o (hperm.mem_iff.mpr ho)
  have hQ0 : 0 ≤ sideQty p.operations p.side := by simp [hops, sideQty]
  have hinv0 : p.open_price * ((sideQty p.operations p.side : ℤ) : ℚ)
      = sideWeight p.operations p.side := by simp [hops, sideQty, sideWeight]
  obtain ⟨-, -, hinv₁⟩ := feedTradesExact_invariant l₁ p hside hqty hQ0 hinv0
  obtain ⟨-, -, hinv₂⟩ := feedTradesExact_invariant l₂ p hside₂ hqty₂ hQ0 hinv0
  rw [hops, List.nil_append] at hinv₁ hinv₂
  cases l₁ with
  | nil =>
    have : l₂ = [] := hperm.symm.eq_nil
    rw [this]
  | cons o rest =>
    have hQeq : sideQty l₂ p.side = sideQty (o :: rest) p.side := by
      unfold sideQty
      exact (List.Perm.sum_eq (List.Perm.map _ (List.Perm.filter _ hperm))).symm
    have hWeq : sideWeight l₂ p.side = sideWeight (o :: rest) p.side := by
      unfold sideWeight
      exact (List.Perm.sum_eq (List.Perm.map _ (List.Perm.filter _ hperm))).symm
    have hfilter : (o :: rest).filter (fun x => x.side == p.side) = o :: rest := by
      apply List.filter_eq_self.mpr
      intro a ha
      simp [hside a ha]
    have hQpos : 0 < sideQty (o :: rest) p.side := by
      unfold sideQty
      rw [hfilter]
      apply List.sum_pos
      · intro x hx
        obtain ⟨a, ha, rfl⟩ := List.mem_map.mp hx
        exact hqty a ha
      · simp
    have hden : ((sideQty (o :: rest) p.side : ℤ) : ℚ) ≠ 0 := by
      have : (0:ℚ) < ((sideQty (o :: rest) p.side : ℤ) : ℚ) := by exact_mod_cast hQpos
      linarith
    rw [hQeq, hWeq] at hinv₂
    have := hinv₁.trans hinv₂.symm
    exact mul_right_cancel₀ hden this

/-- Witness for the amended C4: the exact recurrence gives the same
`open_price` for both orders of the counterexample's operation list. -/
theorem exact_weighted_price_order_insensitive_witness :
    (freshPosition cexA "usd").operations = [] ∧
    (∀ o ∈ [cexA, cexB, cexC], o.side = (freshPosition cexA "usd").side) ∧
    (∀ o ∈ [cexA, cexB, cexC], 0 < o.quantity) ∧
    ([cexA, cexB, cexC] : List Operation).Perm [cexA, cexC, cexB] ∧
    (feedTradesExact [cexA, cexB, cexC] (freshPosition cexA "usd")).open_price
      = (feedTradesExact [cexA, cexC, cexB] (freshPosition cexA "usd")).open_price := by
  have hside : ∀ o ∈ [cexA, cexB, cexC], o.side = (freshPosition cexA "usd").side := by
    intro o ho
    simp only [List.mem_cons, List.not_mem_nil, or_false] at ho
    rcases ho with rfl | rfl | rfl <;> rfl
  have hqty : ∀ o ∈ ([cexA, cexB, cexC] : List Operation), 0 < o.quantity := by
    intro o ho
    simp only [List.mem_cons, List.not_mem_nil, or_false] at ho
    rcases ho with rfl | rfl | rfl <;> norm_num [cexA, cexB, cexC]
  have hperm : ([cexA, cexB, cexC] : List Operation).Perm [cexA, cexC, cexB] :=
    List.Perm.cons cexA (List.Perm.swap cexC cexB [])
  exact ⟨rfl, hside, hqty, hperm,
    exact_weighted_price_order_insensitive (freshPosition cexA "usd")
      [cexA, cexB, cexC] [cexA, cexC, cexB] rfl hside hqty hperm⟩

/-- Claim C5.  For every Fee operation whose declared parent-operation id
matches a recorded `Operation`, the attacher sets the parent operation's
`fee` field to the normalized fee amount (overwriting any previous
value, not accumulating) and increments the owning position's total
`fee` by that same amount; a second Fee referencing the same parent
replaces the parent's own `fee` field while still incrementing the
position total. -/
theorem fee_attachment_overwrite (ps : List Position) (pid : String) (a b : ℚ)
    (h : ∃ p ∈ ps, hasOp p pid = true) :
    storeOpFee? (attachFee ps pid a) pid = some a ∧
    storePosFeeOfParent? (attachFee ps pid a) pid
      = (storePosFeeOfParent? ps pid).map (fun x => x + a) ∧
    storeOpFee? (attachFee (attachFee ps pid a) pid b) pid = some b ∧
    storePosFeeOfParent? (attachFee (attachFee ps pid a) pid b) pid
      = (storePosFeeOfParent? ps pid).map (fun x => x + a + b) := by
  obtain ⟨h1, h2, h3⟩ := attachFee_spec ps pid a h
  obtain ⟨h4, h5, _⟩ := attachFee_spec _ pid b h3
  refine ⟨h1, h2, h4, ?_⟩
  rw [h5, h2, Option.map_map]
  rfl

/-- Witness for C5: attaching a 2.50 fee, then a second 1.75 fee, to the
recorded Buy operation `"t1"` owned by `posOpened`. -/
theorem fee_attachment_overwrite_witness :
    (∃ p ∈ [posOpened], hasOp p "t1" = true) ∧
    storeOpFee? (attachFee [posOpened] "t1" (5/2)) "t1" = some (5/2) ∧
    storePosFeeOfParent? (attachFee [posOpened] "t1" (5/2)) "t1"
      = (storePosFeeOfParent? [posOpened] "t1").map (fun x => x + 5/2) ∧
    storeOpFee? (attachFee (attachFee [posOpened] "t1" (5/2)) "t1" (7/4)) "t1"
      = some (7/4) ∧
    storePosFeeOfParent? (attachFee (attachFee [posOpened] "t1" (5/2)) "t1" (7/4)) "t1"
      = (storePosFeeOfParent? [posOpened] "t1").map (fun x => x + 5/2 + 7/4) :=
  ⟨⟨posOpened, List.mem_cons_self _ _, rfl⟩,
    fee_attachment_overwrite [posOpened] "t1" (5/2) (7/4)
      ⟨posOpened, List.mem_cons_self _ _, rfl⟩⟩

/-- Claim C6.  For every Fee operation whose parent-operation id matches
no recorded `Operation`, processing does not raise (the `AttributeError`
from `None.add_fee` is swallowed by the bare `except`) and leaves all
state unchanged: no operation's `fee` field and no position's total
`fee` is modified, and the batch continues with the next operation. -/
theorem fee_unknown_parent_noop (tickers : String → Option String)
    (fetch : String → String) (lastId : Option String) (s : Store)
    (op : SdkOperation) (hexec : op.executed = true)
    (htype : op.operation_type = OpType.brokerFee)
    (hnone : ∀ p ∈ s.positions, hasOp p op.parent_operation_id = false) :
    processOperation tickers fetch lastId s op = s := by
  have hatt := attachFee_not_found s.positions op.parent_operation_id
    (extract_money_amount op.payment) hnone
  unfold processOperation
  rw [hexec, htype]
  simp only [mapOperationType, Bool.not_true, Bool.false_eq_true, if_false]
  split
  · rfl
  · simp only [String.reduceBEq, if_true, beq_self_eq_true]
    rw [hatt]

/-- Witness for C6: the unknown-parent fee `"f1"` leaves the sample
store untouched. -/
theorem fee_unknown_parent_noop_witness :
    sampleFeeOpUnknown.executed = true ∧
    sampleFeeOpUnknown.operation_type = OpType.brokerFee ∧
    (∀ p ∈ sampleStore.positions,
      hasOp p sampleFeeOpUnknown.parent_operation_id = false) ∧
    processOperation noTickers constFetch none sampleStore sampleFeeOpUnknown
      = sampleStore :=
  ⟨rfl, rfl,
    fun p hp => by
      rcases List.mem_cons.mp hp with rfl | hp'
      · rfl
      · simp [sampleStore] at hp',
    fee_unknown_parent_noop noTickers constFetch none sampleStore sampleFeeOpUnknown
      rfl rfl
      (fun p hp => by
        rcases List.mem_cons.mp hp with rfl | hp'
        · rfl
        · simp [sampleStore] at hp')⟩

/-- Claim C7.  Running synchronization twice with an overlapping fetch
window (the last already-recorded operation id present in the second
fetch) creates no duplicate Operation rows: every incoming operation
whose id equals the id of the most recently recorded operation is
skipped (the `continue` at the top of the loop), and — provided the only
ids of the batch already present in the store are that watermark id —
the run adds no row for any id already in the store: the
per-id row count of every previously recorded id is unchanged. -/
theorem sync_overlap_no_duplicates (t : String → Option String) (f : String → String)
    (lastId : Option String) (s : Store) (batch : List SdkOperation)
    (h : ∀ op ∈ batch, op.id ∈ storeOpIds s.positions → lastId = some op.id) :
    (∀ (s' : Store) (op : SdkOperation), lastId = some op.id →
      processOperation t f lastId s' op = s') ∧
    ∀ x ∈ storeOpIds s.positions,
      (storeOpIds (record_operations t f lastId s batch).positions).count x
        = (storeOpIds s.positions).count x :=
  ⟨fun s' op hop => processOperation_skip t f lastId s' op hop,
    record_operations_count_aux t f lastId (storeOpIds s.positions) batch s h
      (fun _ _ => rfl)⟩

/-- Witness for C7: a second run whose batch re-fetches the recorded
operation `"t1"` (the watermark) plus a new Sell adds no row for
`"t1"`. -/
theorem sync_overlap_no_duplicates_witness :
    (∀ op ∈ [sampleSdkDup, sampleSdkSell],
      op.id ∈ storeOpIds sampleStore.positions → some "t1" = some op.id) ∧
    (∀ (s' : Store) (op : SdkOperation), (some "t1" : Option String) = some op.id →
      processOperation noTickers constFetch (some "t1") s' op = s') ∧
    ∀ x ∈ storeOpIds sampleStore.positions,
      (storeOpIds (record_operations noTickers constFetch (some "t1") sampleStore
        [sampleSdkDup, sampleSdkSell]).positions).count x
        = (storeOpIds sampleStore.positions).count x := by
  have h : ∀ op ∈ [sampleSdkDup, sampleSdkSell],
      op.id ∈ storeOpIds sampleStore.positions → some "t1" = some op.id := by
    intro op hop hid
    simp only [List.mem_cons, List.not_mem_nil, or_false] at hop
    rcases hop with rfl | rfl
    · rfl
    · exact absurd hid (by decide)
  exact ⟨h, sync_overlap_no_duplicates noTickers constFetch (some "t1") sampleStore
    [sampleSdkDup, sampleSdkSell] h⟩

/-- Claim C8.  The money normalizer is the pure function
`round(units + nano * 1e-9, 2)` with no error conditions: for every
integer `units` and `nano` it returns the 2-decimal rounding of
`units + nano / 10^9`; in particular `normalize(10, 500000000) = 10.50`,
`normalize(7, 250000000) = 7.25`, and
`normalize(-1, 500000000) = -0.50`. -/
theorem extract_money_amount_spec :
    (∀ m : MoneyValue,
      extract_money_amount m = round2 ((m.units : ℚ) + (m.nano : ℚ) / 10 ^ 9))
    ∧ extract_money_amount ⟨10, 500000000⟩ = 21/2
    ∧ extract_money_amount ⟨7, 250000000⟩ = 29/4
    ∧ extract_money_amount ⟨-1, 500000000⟩ = -1/2 := by
  refine ⟨fun m => ?_, ?_, ?_, ?_⟩
  · unfold extract_money_amount
    norm_num [mul_one_div]
  · norm_num [extract_money_amount, round2, roundHalfEven]
  · norm_num [extract_money_amount, round2, roundHalfEven]
  · norm_num [extract_money_amount, round2, roundHalfEven]

/-- Claim C9.  For every accepted Buy/Sell operation with positive
quantity, the divisor `sameSideQty` used in `Position.update` is
strictly positive, so the weighted-price divisions never divide by
zero: the operation is appended to the position's operation collection
before `update` runs, so the same-side quantity sum includes the new
operation's own positive quantity. -/
theorem same_side_quantity_positive (p : Position) (op : Operation)
    (hall : ∀ o ∈ p.operations, 0 < o.quantity) (hq : 0 < op.quantity) :
    0 < Position.get_operations_quantity
      { p with operations := p.operations ++ [op] } op.side := by
  simp only [Position.get_operations_quantity, List.filter_append, List.map_append,
    List.sum_append]
  have hop : List.filter (fun o => o.side == op.side) [op] = [op] := by simp
  rw [hop]
  simp only [List.map_cons, List.map_nil, List.sum_cons, List.sum_nil, add_zero]
  have h1 : 0 ≤ ((p.operations.filter (fun o => o.side == op.side)).map
      Operation.quantity).sum := by
    apply List.sum_nonneg
    intro x hx
    obtain ⟨o, ho, rfl⟩ := List.mem_map.mp hx
    exact le_of_lt (hall o (List.mem_of_mem_filter ho))
  linarith

/-- Witness for C9: the divisor is positive when Buy 10@100 arrives at a
fresh position. -/
theorem same_side_quantity_positive_witness :
    (∀ o ∈ (freshPosition sampleBuy10 "usd").operations, 0 < o.quantity) ∧
    0 < sampleBuy10.quantity ∧
    0 < Position.get_operations_quantity
      { freshPosition sampleBuy10 "usd" with
        operations := (freshPosition sampleBuy10 "usd").operations ++ [sampleBuy10] }
      sampleBuy10.side :=
  ⟨fun o ho => absurd ho (by simp [freshPosition]), by norm_num [sampleBuy10],
    same_side_quantity_positive (freshPosition sampleBuy10 "usd") sampleBuy10
      (fun o ho => absurd ho (by simp [freshPosition])) (by norm_num [sampleBuy10])⟩

/-- Claim C10.  For every position and every operation, `Position.update`
modifies only the fields `open_price`, `closing_price`, `result` and
`closed` of the position: its `ticker`, `side`, `currency`, `fee` and
`note` fields are unchanged by processing a trade leg; the position's
`fee` changes only through fee attachment, never through a Buy/Sell leg
(recording a trade leg via `applyTrade` keeps the fee, and a freshly
created position starts with fee 0). -/
theorem update_frame_effect :
    (∀ (p : Position) (op : Operation) (pay : ℚ),
      (Position.update p op pay).ticker = p.ticker ∧
      (Position.update p op pay).side = p.side ∧
      (Position.update p op pay).currency = p.currency ∧
      (Position.update p op pay).fee = p.fee ∧
      (Position.update p op pay).note = p.note) ∧
    (∀ (p : Position) (e : Operation) (pay : ℚ), (applyTrade p e pay).fee = p.fee) ∧
    (∀ (e : Operation) (c : String), (freshPosition e c).fee = 0) := by
  refine ⟨fun p op pay => ⟨update_ticker p op pay, update_side p op pay,
    update_currency p op pay, update_fee p op pay, update_note p op pay⟩,
    fun p e pay => ?_, fun e c => rfl⟩
  unfold applyTrade
  rw [update_fee]

end TradingJournal
